import Mathlib

/- Verification of src/rfwave/attention.py: rotary positional embeddings,
   masking utilities, RMS normalization, feed-forward and (cross) attention
   building blocks of a transformer audio model.

   Modelling conventions.  Integer and boolean tensors are modelled as nested
   lists over ℤ and Bool; floating-point scalar values are modelled by exact
   real (or rational, where the code only does integer-like work) arithmetic.
   The additive attention-bias value float('-inf') is modelled by the bottom
   element ⊥ of WithBot ℝ, finite float values by real coercions.  Tensor
   shapes are the nesting structure of the lists; shape2/shape3/shape4 state
   that a nested list is rectangular with the given dimensions. -/

namespace RFWave

/-- Shape predicate for a rank-2 tensor modelled as a nested list: the outer
length is the first dimension, every row has the second dimension as length. -/
abbrev shape2 {α : Type} (x : List (List α)) (a b : ℕ) : Prop :=
  x.length = a ∧ ∀ r ∈ x, r.length = b

/-- Shape predicate for a rank-3 tensor modelled as a nested list. -/
abbrev shape3 {α : Type} (x : List (List (List α))) (a b c : ℕ) : Prop :=
  x.length = a ∧ ∀ m ∈ x, shape2 m b c

/-- Shape predicate for a rank-4 tensor modelled as a nested list. -/
abbrev shape4 {α : Type} (x : List (List (List (List α)))) (a b c d : ℕ) : Prop :=
  x.length = a ∧ ∀ m ∈ x, shape3 m b c d

/-- Reading an in-range position of a mapped list. -/
theorem getD_map {α β : Type} (f : α → β) (l : List α) (i : ℕ) (d : β) (d' : α)
    (h : i < l.length) : (l.map f).getD i d = f (l.getD i d') := by
  rw [List.getD_eq_getElem (l.map f) d (by simpa using h), List.getD_eq_getElem l d' h]
  simp

/-- Reading an in-range position of a list built by mapping over a range. -/
theorem getD_range_map {β : Type} (f : ℕ → β) (n i : ℕ) (d : β) (h : i < n) :
    ((List.range n).map f).getD i d = f i := by
  rw [getD_map f (List.range n) i d 0 (by simpa using h)]
  rw [List.getD_eq_getElem (List.range n) 0 (by simpa using h)]
  simp

/-- An in-range getD read is a member of the list. -/
theorem getD_mem {α : Type} (l : List α) (i : ℕ) (d : α) (h : i < l.length) :
    l.getD i d ∈ l := by
  rw [List.getD_eq_getElem l d h]
  exact List.getElem_mem h

/-- An out-of-range getD read returns the default. -/
theorem getD_default {α : Type} (l : List α) (i : ℕ) (d : α) (h : l.length ≤ i) :
    l.getD i d = d := List.getD_eq_default l d h

/- ------------------------------------------------------------------ -/
/- Masking utilities (source lines 78-96).                            -/
/- ------------------------------------------------------------------ -/

/-- Source def sequence_mask (lines 78-82), with max_length given.  The code
builds x = torch.arange(max_length) in the integer dtype of length and
returns x.unsqueeze(0) < length.unsqueeze(1), a boolean (batch, max_length)
tensor with entry (i, j) equal to (j < length[i]). -/
def sequence_mask (length : List ℤ) (max_length : ℕ) : List (List Bool) :=
  length.map (fun li => (List.range max_length).map (fun j : ℕ => decide ((j : ℤ) < li)))

/-- Models Tensor.max() for a non-empty integer vector: the maximum element
(the [] case is junk; torch raises on an empty reduction). -/
def maxOfList : List ℤ → ℤ
  | [] => 0
  | [x] => x
  | x :: y :: ys => max x (maxOfList (y :: ys))

theorem maxOfList_singleton (x : ℤ) : maxOfList [x] = x := rfl

theorem maxOfList_cons_cons (x y : ℤ) (ys : List ℤ) :
    maxOfList (x :: y :: ys) = max x (maxOfList (y :: ys)) := rfl

theorem maxOfList_mem : ∀ l : List ℤ, l ≠ [] → maxOfList l ∈ l
  | [], h => absurd rfl h
  | [x], _ => by simp [maxOfList]
  | x :: y :: ys, _ => by
    have ih := maxOfList_mem (y :: ys) (by simp)
    rw [maxOfList_cons_cons]
    rcases max_choice x (maxOfList (y :: ys)) with h | h
    · rw [h]; exact List.mem_cons_self x _
    · rw [h]; exact List.mem_cons_of_mem x ih

theorem le_maxOfList : ∀ l : List ℤ, ∀ v ∈ l, v ≤ maxOfList l
  | [], v, hv => by simp at hv
  | [x], v, hv => by simp at hv; simp [hv, maxOfList]
  | x :: y :: ys, v, hv => by
    rw [maxOfList_cons_cons]
    rcases List.mem_cons.mp hv with rfl | hv'
    · exact le_max_left _ _
    · exact le_trans (le_maxOfList (y :: ys) v hv') (le_max_right _ _)

/-- Source def sequence_mask with max_length omitted (None): the code sets
max_length = length.max() before building the arange.  The integer maximum is
converted with toNat because the arange width is a natural number. -/
def sequence_mask_auto (length : List ℤ) : List (List Bool) :=
  sequence_mask length (maxOfList length).toNat

/-- Source def score_mask (lines 85-89): builds sequence_mask, a float zero
tensor of the same shape, fills the invalid (False) positions with -inf and
inserts singleton dimensions 1 and 2, giving shape (batch, 1, 1, max_length). -/
def score_mask (length : List ℤ) (max_length : ℕ) : List (List (List (List (WithBot ℝ)))) :=
  (sequence_mask length max_length).map
    (fun row => [[row.map (fun b => if b then (0 : WithBot ℝ) else ⊥)]])

/-- Source def score_mask_from_bool_mask (lines 92-96): builds a float zero
tensor shaped like bool_mask, fills the positions where bool_mask is True
with -inf (True marks an invalid/masked position) and inserts singleton
dimensions 1 and 2. -/
def score_mask_from_bool_mask (bool_mask : List (List Bool)) :
    List (List (List (List (WithBot ℝ)))) :=
  bool_mask.map (fun row => [[row.map (fun b => if b then (⊥ : WithBot ℝ) else 0)]])

/-- Truncation toward zero, the semantics of Tensor.long() on floats. -/
def ratTrunc (q : ℚ) : ℤ := if 0 ≤ q then ⌊q⌋ else ⌈q⌉

/-- Source def get_pos_embed_indices (lines 109-117).  scale is per-batch (a
scalar scale s is passed as replicate batch s, matching the broadcast with
torch.ones_like(start)).  pos = start.unsqueeze(1) + (arange(length) *
scale.unsqueeze(1)).long(), then entries reaching max_pos are replaced by
max_pos - 1 via torch.where(pos < max_pos, pos, max_pos - 1). -/
def get_pos_embed_indices (start : List ℤ) (length : ℕ) (max_pos : ℤ)
    (scale : List ℚ) : List (List ℤ) :=
  (List.range start.length).map (fun i =>
    (List.range length).map (fun j : ℕ =>
      if start.getD i 0 + ratTrunc ((j : ℚ) * scale.getD i 1) < max_pos then
        start.getD i 0 + ratTrunc ((j : ℚ) * scale.getD i 1)
      else max_pos - 1))

/- ------------------------------------------------------------------ -/
/- Theorems for the masking and index utilities.                      -/
/- ------------------------------------------------------------------ -/

/-- C8: sequence_mask(lengths, max_length) is a boolean (batch, max_length)
tensor whose entry (i, j) is True iff j < lengths[i]; in particular
sequence_mask([3, 5], 5) = [[T,T,T,F,F],[T,T,T,T,T]]. -/
theorem sequence_mask_spec (l : List ℤ) (L i j : ℕ) (hi : i < l.length) (hj : j < L) :
    shape2 (sequence_mask l L) l.length L
    ∧ (((sequence_mask l L).getD i []).getD j false = true ↔ (j : ℤ) < l.getD i 0)
    ∧ sequence_mask [3, 5] 5 =
        [[true, true, true, false, false], [true, true, true, true, true]] := by
  refine ⟨⟨by simp [sequence_mask], ?_⟩, ?_, by decide⟩
  · intro r hr
    simp only [sequence_mask, List.mem_map] at hr
    obtain ⟨a, _, rfl⟩ := hr
    simp
  · rw [sequence_mask, getD_map _ l i [] 0 hi, getD_range_map _ L j false hj]
    simp

/-- C8 witness at lengths [3, 5], max_length 5, i = 0, j = 4. -/
theorem sequence_mask_spec_witness :
    shape2 (sequence_mask [3, 5] 5) ([3, 5] : List ℤ).length 5 :=
  (sequence_mask_spec [3, 5] 5 0 4 (by decide) (by decide)).1

/-- C10: calling sequence_mask with max_length omitted uses the maximum of the
(non-empty) lengths vector as the mask width: it agrees with sequence_mask at
that width and has shape (batch, max(lengths)); maxOfList really is the
maximum element of the vector. -/
theorem sequence_mask_auto_spec (l : List ℤ) (h : l ≠ []) (h0 : 0 ≤ maxOfList l) :
    sequence_mask_auto l = sequence_mask l (maxOfList l).toNat
    ∧ shape2 (sequence_mask_auto l) l.length (maxOfList l).toNat
    ∧ ((maxOfList l).toNat : ℤ) = maxOfList l
    ∧ maxOfList l ∈ l ∧ ∀ v ∈ l, v ≤ maxOfList l := by
  refine ⟨rfl, ⟨by simp [sequence_mask_auto, sequence_mask], ?_⟩,
    Int.toNat_of_nonneg h0, maxOfList_mem l h, le_maxOfList l⟩
  intro r hr
  simp only [sequence_mask_auto, sequence_mask, List.mem_map] at hr
  obtain ⟨a, _, rfl⟩ := hr
  simp

/-- C10 witness at lengths [3, 5]. -/
theorem sequence_mask_auto_spec_witness :
    sequence_mask_auto [3, 5] = sequence_mask [3, 5] (maxOfList [3, 5]).toNat :=
  (sequence_mask_auto_spec [3, 5] (by decide) (by decide)).1

/-- C1: score_mask(lengths, max_length) has shape (batch, 1, 1, max_length)
with entry (i, 0, 0, j) equal to 0 when j < lengths[i] and -infinity (⊥)
otherwise; score_mask_from_bool_mask inserts the same two singleton
dimensions and maps a True (invalid/masked) position to -infinity and a
False (valid) position to 0; every entry of both outputs is 0 or -infinity. -/
theorem score_mask_spec (l : List ℤ) (L i j : ℕ) (bm : List (List Bool)) (i2 j2 : ℕ)
    (hi : i < l.length) (hj : j < L)
    (hi2 : i2 < bm.length) (hj2 : j2 < (bm.getD i2 []).length) :
    shape4 (score_mask l L) l.length 1 1 L
    ∧ ((((score_mask l L).getD i []).getD 0 []).getD 0 []).getD j 0
        = (if (j : ℤ) < l.getD i 0 then (0 : WithBot ℝ) else ⊥)
    ∧ (score_mask_from_bool_mask bm).length = bm.length
    ∧ ((score_mask_from_bool_mask bm).getD i2 []).length = 1
    ∧ (((score_mask_from_bool_mask bm).getD i2 []).getD 0 []).length = 1
    ∧ ((((score_mask_from_bool_mask bm).getD i2 []).getD 0 []).getD 0 []).length
        = (bm.getD i2 []).length
    ∧ ((((score_mask_from_bool_mask bm).getD i2 []).getD 0 []).getD 0 []).getD j2 0
        = (if (bm.getD i2 []).getD j2 false then (⊥ : WithBot ℝ) else 0)
    ∧ (∀ m ∈ score_mask l L, ∀ p ∈ m, ∀ r ∈ p, ∀ v ∈ r, v = 0 ∨ v = ⊥)
    ∧ (∀ m ∈ score_mask_from_bool_mask bm, ∀ p ∈ m, ∀ r ∈ p, ∀ v ∈ r, v = 0 ∨ v = ⊥) := by
  have hsm : i < (sequence_mask l L).length := by simpa [sequence_mask] using hi
  refine ⟨⟨by simp [score_mask, sequence_mask], ?_⟩, ?_, by simp [score_mask_from_bool_mask],
    ?_, ?_, ?_, ?_, ?_, ?_⟩
  · intro m hm
    simp only [score_mask, List.mem_map] at hm
    obtain ⟨row, hrow, rfl⟩ := hm
    refine ⟨rfl, ?_⟩
    intro p hp
    simp only [List.mem_singleton] at hp
    subst hp
    refine ⟨rfl, ?_⟩
    intro r hr
    simp only [List.mem_singleton] at hr
    subst hr
    simp only [List.length_map]
    simp only [sequence_mask, List.mem_map] at hrow
    obtain ⟨a, _, rfl⟩ := hrow
    simp
  · have hrow : (sequence_mask l L).getD i [] =
        (List.range L).map (fun j : ℕ => decide ((j : ℤ) < l.getD i 0)) := by
      rw [sequence_mask, getD_map _ l i [] 0 hi]
    rw [score_mask, getD_map _ (sequence_mask l L) i [] [] hsm]
    simp only [List.getD_cons_zero]
    rw [hrow, getD_map _ _ j 0 false (by simpa using hj), getD_range_map _ L j false hj]
    by_cases hc : (j : ℤ) < l.getD i 0 <;> simp [hc]
  · rw [score_mask_from_bool_mask, getD_map _ bm i2 [] [] hi2]
    rfl
  · rw [score_mask_from_bool_mask, getD_map _ bm i2 [] [] hi2]
    rfl
  · rw [score_mask_from_bool_mask, getD_map _ bm i2 [] [] hi2]
    simp
  · rw [score_mask_from_bool_mask, getD_map _ bm i2 [] [] hi2]
    simp only [List.getD_cons_zero]
    rw [getD_map _ (bm.getD i2 []) j2 0 false hj2]
  · intro m hm p hp r hr v hv
    simp only [score_mask, List.mem_map] at hm
    obtain ⟨row, _, rfl⟩ := hm
    simp only [List.mem_singleton] at hp
    subst hp
    simp only [List.mem_singleton] at hr
    subst hr
    simp only [List.mem_map] at hv
    obtain ⟨b, _, rfl⟩ := hv
    by_cases hb : b <;> simp [hb]
  · intro m hm p hp r hr v hv
    simp only [score_mask_from_bool_mask, List.mem_map] at hm
    obtain ⟨row, _, rfl⟩ := hm
    simp only [List.mem_singleton] at hp
    subst hp
    simp only [List.mem_singleton] at hr
    subst hr
    simp only [List.mem_map] at hv
    obtain ⟨b, _, rfl⟩ := hv
    by_cases hb : b <;> simp [hb]

/-- C1 witness at lengths [2], max_length 3, bool mask [[false, true]]. -/
theorem score_mask_spec_witness :
    shape4 (score_mask [2] 3) ([2] : List ℤ).length 1 1 3 :=
  (score_mask_spec [2] 3 0 2 [[false, true]] 0 1
    (by decide) (by decide) (by decide) (by decide)).1

/-- C7: get_pos_embed_indices(start, length, max_pos, scale) has shape
(batch, length), entry (i, j) is start[i] + trunc(j * scale[i]) clamped to
max_pos - 1 when it would reach max_pos, every entry is strictly below
max_pos, and get_pos_embed_indices([0], 4, 3, [1]) = [[0, 1, 2, 2]]. -/
theorem get_pos_embed_indices_spec (start : List ℤ) (L : ℕ) (maxp : ℤ)
    (scale : List ℚ) (i j : ℕ) (hmp : 0 < maxp) (hi : i < start.length) (hj : j < L) :
    shape2 (get_pos_embed_indices start L maxp scale) start.length L
    ∧ ((get_pos_embed_indices start L maxp scale).getD i []).getD j 0
        = (if start.getD i 0 + ratTrunc ((j : ℚ) * scale.getD i 1) < maxp then
            start.getD i 0 + ratTrunc ((j : ℚ) * scale.getD i 1)
          else maxp - 1)
    ∧ (∀ r ∈ get_pos_embed_indices start L maxp scale, ∀ v ∈ r, v < maxp)
    ∧ get_pos_embed_indices [0] 4 3 [1] = [[0, 1, 2, 2]] := by
  have hex : get_pos_embed_indices [0] 4 3 [1] = [[0, 1, 2, 2]] := by
    simp only [get_pos_embed_indices, ratTrunc]
    norm_num [List.range_succ]
  refine ⟨⟨by simp [get_pos_embed_indices], ?_⟩, ?_, ?_, hex⟩
  · intro r hr
    simp only [get_pos_embed_indices, List.mem_map] at hr
    obtain ⟨a, _, rfl⟩ := hr
    simp
  · rw [get_pos_embed_indices, getD_range_map _ start.length i [] hi,
      getD_range_map _ L j 0 hj]
  · intro r hr v hv
    simp only [get_pos_embed_indices, List.mem_map] at hr
    obtain ⟨a, _, rfl⟩ := hr
    simp only [List.mem_map] at hv
    obtain ⟨b, _, rfl⟩ := hv
    by_cases hc : start.getD a 0 + ratTrunc ((b : ℚ) * scale.getD a 1) < maxp
    · rw [if_pos hc]
      exact hc
    · rw [if_neg hc]
      omega

/-- C7 witness at start [0], length 4, max_pos 3, scale [1], i = 0, j = 3. -/
theorem get_pos_embed_indices_spec_witness :
    get_pos_embed_indices [0] 4 3 [1] = [[0, 1, 2, 2]] :=
  (get_pos_embed_indices_spec [0] 4 3 [1] 0 3 (by decide) (by decide) (by decide)).2.2.2

/- ------------------------------------------------------------------ -/
/- Rotary embedding utilities (source lines 27-75).                   -/
/- ------------------------------------------------------------------ -/

/-- Reading an in-range position of an initial append segment. -/
theorem getD_append_left {α : Type} (l1 l2 : List α) (j : ℕ) (d : α)
    (h : j < l1.length) : (l1 ++ l2).getD j d = l1.getD j d := by
  simp [List.getD_eq_getElem?_getD, List.getElem?_append_left h]

/-- Reading a position of an append past the first segment. -/
theorem getD_append_right {α : Type} (l1 l2 : List α) (j : ℕ) (d : α)
    (h : l1.length ≤ j) : (l1 ++ l2).getD j d = l2.getD (j - l1.length) d := by
  simp [List.getD_eq_getElem?_getD, List.getElem?_append_right h]

/-- The frequency vector of precompute_freqs_cis (source lines 32-33):
freqs = 1.0 / theta' ^ (arange(0, dim, 2)[: dim // 2] / dim) after
theta' = theta * theta_rescale_factor ^ (dim / (dim - 2)).  Entry i is
1 / theta' ^ ((2 i) / dim).  (Python raises ZeroDivisionError at dim = 2;
real division totalizes that case with x / 0 = 0, so statements about
dim = 2 are excluded from the theorems below.) -/
noncomputable def rope_freqs (dim : ℕ) (theta rescale : ℝ) : List ℝ :=
  (List.range (dim / 2)).map (fun i : ℕ =>
    1 / (theta * rescale ^ ((dim : ℝ) / ((dim : ℝ) - 2))) ^ ((2 * (i : ℝ)) / (dim : ℝ)))

/-- Source def precompute_freqs_cis (lines 27-38): row t of the result is
the concatenation of the cosines and the sines of t * freqs (torch.cat of
torch.cos(outer(t, freqs)) and torch.sin(outer(t, freqs)) on the last
dimension). -/
noncomputable def precompute_freqs_cis (dim nEnd : ℕ) (theta rescale : ℝ) :
    List (List ℝ) :=
  (List.range nEnd).map (fun t : ℕ =>
    (rope_freqs dim theta rescale).map (fun f => Real.cos ((t : ℝ) * f))
      ++ (rope_freqs dim theta rescale).map (fun f => Real.sin ((t : ℝ) * f)))

theorem rope_freqs_length (dim : ℕ) (theta rescale : ℝ) :
    (rope_freqs dim theta rescale).length = dim / 2 := by
  simp [rope_freqs]

/-- C3 (amended to even dim at least 4): precompute_freqs_cis(dim, end,
theta, rescale) has shape (end, dim); entry (t, j) is cos(t * f_j) for
j < dim/2 and sin(t * f_(j - dim/2)) otherwise, where
f_i = 1 / theta' ^ (2 i / dim) and theta' = theta * rescale ^ (dim/(dim-2));
every entry lies in [-1, 1].  The function is a plain (deterministic, pure)
function of its arguments. -/
theorem precompute_freqs_cis_spec (dim e : ℕ) (θ r : ℝ)
    (hdim : dim % 2 = 0) (h4 : 4 ≤ dim) :
    shape2 (precompute_freqs_cis dim e θ r) e dim
    ∧ (∀ t j : ℕ, t < e → j < dim →
        ((precompute_freqs_cis dim e θ r).getD t []).getD j 0 =
          (if j < dim / 2 then Real.cos ((t : ℝ) * (rope_freqs dim θ r).getD j 0)
           else Real.sin ((t : ℝ) * (rope_freqs dim θ r).getD (j - dim / 2) 0)))
    ∧ (∀ j : ℕ, j < dim / 2 →
        (rope_freqs dim θ r).getD j 0 =
          1 / (θ * r ^ ((dim : ℝ) / ((dim : ℝ) - 2))) ^ ((2 * (j : ℝ)) / (dim : ℝ)))
    ∧ (∀ row ∈ precompute_freqs_cis dim e θ r, ∀ v ∈ row, -1 ≤ v ∧ v ≤ 1) := by
  refine ⟨⟨by simp [precompute_freqs_cis], ?_⟩, ?_, ?_, ?_⟩
  · intro row hrow
    simp only [precompute_freqs_cis, List.mem_map] at hrow
    obtain ⟨t, _, rfl⟩ := hrow
    simp [rope_freqs_length]
    omega
  · intro t j ht hj
    rw [precompute_freqs_cis, getD_range_map _ e t [] ht]
    by_cases hjh : j < dim / 2
    · rw [getD_append_left _ _ _ _ (by simpa [rope_freqs_length] using hjh), if_pos hjh,
        getD_map _ (rope_freqs dim θ r) j 0 0 (by simpa [rope_freqs_length] using hjh)]
    · rw [getD_append_right _ _ _ _ (by simpa [rope_freqs_length] using not_lt.mp hjh),
        if_neg hjh]
      simp only [List.length_map, rope_freqs_length]
      rw [getD_map _ (rope_freqs dim θ r) (j - dim / 2) 0 0
        (by simp only [rope_freqs_length]; omega)]
  · intro j hj
    rw [rope_freqs, getD_range_map _ (dim / 2) j 0 hj]
  · intro row hrow v hv
    simp only [precompute_freqs_cis, List.mem_map] at hrow
    obtain ⟨t, _, rfl⟩ := hrow
    rcases List.mem_append.mp hv with h | h
    · simp only [List.mem_map] at h
      obtain ⟨f, _, rfl⟩ := h
      exact ⟨Real.neg_one_le_cos _, Real.cos_le_one _⟩
    · simp only [List.mem_map] at h
      obtain ⟨f, _, rfl⟩ := h
      exact ⟨Real.neg_one_le_sin _, Real.sin_le_one _⟩

/-- C3 witness at dim = 4, end = 1, theta = 10000, rescale = 1. -/
theorem precompute_freqs_cis_spec_witness :
    shape2 (precompute_freqs_cis 4 1 10000 1) 1 4 :=
  (precompute_freqs_cis_spec 4 1 10000 1 (by decide) (by decide)).1

/-- C3 counterexample to the claim as stated: at the positive dimension
dim = 1 (with end = 1) the result has one row of width 0, not width dim = 1:
the claimed shape (end, dim) fails for odd dim. -/
theorem precompute_freqs_cis_shape_cex :
    (precompute_freqs_cis 1 1 10000 1).length = 1
    ∧ ¬ shape2 (precompute_freqs_cis 1 1 10000 1) 1 1 := by
  have h : precompute_freqs_cis 1 1 10000 1 = [[]] := by
    simp [precompute_freqs_cis, rope_freqs]
  rw [h]
  refine ⟨rfl, fun hsh => ?_⟩
  have := hsh.2 [] (by simp)
  simp at this

/-- Tensor with explicit shape metadata and row-major flat data, used for the
pure shape-manipulating function reshape_for_broadcast. -/
structure Tensor where
  shape : List ℕ
  data : List ℝ

/-- Source def reshape_for_broadcast (lines 41-52).  Failure of either of the
asserts (including the initial assert 0 <= 1 < ndim) and the final
ValueError for unsupported rank are modelled as none.  For rank-4 x the
asserted table shape is (x.shape[0], x.shape[1], x.shape[-1]) and the result
is the table viewed with shape [d if i in (0, 1, ndim - 1) else 1], i.e.
(x.shape[0], x.shape[1], 1, x.shape[3]); for rank-3 x the table must match
x.shape exactly and is returned unchanged. -/
def reshape_for_broadcast (freqs_cis x : Tensor) : Option Tensor :=
  if x.shape.length = 4 then
    if freqs_cis.shape = [x.shape.getD 0 0, x.shape.getD 1 0, x.shape.getD 3 0] then
      some ⟨[x.shape.getD 0 0, x.shape.getD 1 0, 1, x.shape.getD 3 0], freqs_cis.data⟩
    else none
  else if x.shape.length = 3 then
    if freqs_cis.shape = x.shape then some freqs_cis else none
  else none

/-- C6: reshape_for_broadcast succeeds exactly for x of rank 3 (requiring an
exact shape match, returning the table unchanged) or rank 4 (requiring table
shape (x0, x1, x3), returning the table viewed with a singleton inserted at
dimension 2); every other rank fails. -/
theorem reshape_for_broadcast_spec (f x : Tensor) :
    ((reshape_for_broadcast f x).isSome ↔
      (x.shape.length = 3 ∧ f.shape = x.shape)
      ∨ (x.shape.length = 4
          ∧ f.shape = [x.shape.getD 0 0, x.shape.getD 1 0, x.shape.getD 3 0]))
    ∧ (x.shape.length = 3 → f.shape = x.shape → reshape_for_broadcast f x = some f)
    ∧ (x.shape.length = 4 →
        f.shape = [x.shape.getD 0 0, x.shape.getD 1 0, x.shape.getD 3 0] →
        reshape_for_broadcast f x =
          some ⟨[x.shape.getD 0 0, x.shape.getD 1 0, 1, x.shape.getD 3 0], f.data⟩)
    ∧ (x.shape.length ≠ 3 → x.shape.length ≠ 4 → reshape_for_broadcast f x = none) := by
  by_cases h4 : x.shape.length = 4
  · by_cases hf : f.shape = [x.shape.getD 0 0, x.shape.getD 1 0, x.shape.getD 3 0]
    · simp [reshape_for_broadcast, h4, hf]
    · simp [reshape_for_broadcast, h4, hf]
  · by_cases h3 : x.shape.length = 3
    · by_cases hf : f.shape = x.shape
      · simp [reshape_for_broadcast, h4, h3, hf]
      · simp [reshape_for_broadcast, h4, h3, hf]
    · simp [reshape_for_broadcast, h4, h3]

/-- C6 witness: a rank-3 exact-shape call returns the table unchanged. -/
theorem reshape_for_broadcast_spec_witness :
    reshape_for_broadcast ⟨[2, 3, 4], []⟩ ⟨[2, 3, 4], []⟩ = some ⟨[2, 3, 4], []⟩ :=
  (reshape_for_broadcast_spec ⟨[2, 3, 4], []⟩ ⟨[2, 3, 4], []⟩).2.1 rfl rfl

/-- Core of apply_rotary_emb (source lines 62-73) on one last-dimension row.
The source reshapes the row into pairs and unbinds: x_r is the even entries,
x_i the odd entries; it rotates each pair by the table values and re-
interleaves with stack + flatten.  Entry 2k of the result is
x[2k] * cos[k] - x[2k+1] * sin[k] and entry 2k+1 is
x[2k] * sin[k] + x[2k+1] * cos[k], written here position-wise. -/
noncomputable def rotate_row (xs cs ss : List ℝ) : List ℝ :=
  (List.range xs.length).map (fun n : ℕ =>
    if n % 2 = 0 then xs.getD n 0 * cs.getD (n / 2) 0 - xs.getD (n + 1) 0 * ss.getD (n / 2) 0
    else xs.getD (n - 1) 0 * ss.getD (n / 2) 0 + xs.getD n 0 * cs.getD (n / 2) 0)

/-- Source def apply_rotary_emb (lines 55-75) for a rank-3 input (batch,
seq, dim).  A missing table returns the input unchanged.  Otherwise
torch.chunk splits the table row into its cosine half and its sine half
(sizes ceil(d/2) and floor(d/2)); reshape_for_broadcast for rank 3 demands
the exact shape match realised here by indexing the table at the same
(batch, seq) position. -/
noncomputable def apply_rotary_emb3 (x : List (List (List ℝ)))
    (freqs_cis : Option (List (List (List ℝ)))) : List (List (List ℝ)) :=
  match freqs_cis with
  | none => x
  | some f =>
    (List.range x.length).map (fun i : ℕ =>
      (List.range ((x.getD i []).length)).map (fun j : ℕ =>
        rotate_row ((x.getD i []).getD j [])
          (((f.getD i []).getD j []).take ((((f.getD i []).getD j []).length + 1) / 2))
          (((f.getD i []).getD j []).drop ((((f.getD i []).getD j []).length + 1) / 2))))

/-- Source def apply_rotary_emb (lines 55-75) for a rank-4 input (batch,
seq, heads, head_dim): reshape_for_broadcast views the (batch, seq,
head_dim/2) table halves with a singleton head dimension, so every head of a
(batch, seq) position is rotated with the same table row. -/
noncomputable def apply_rotary_emb4 (x : List (List (List (List ℝ))))
    (freqs_cis : Option (List (List (List ℝ)))) : List (List (List (List ℝ))) :=
  match freqs_cis with
  | none => x
  | some f =>
    (List.range x.length).map (fun i : ℕ =>
      (List.range ((x.getD i []).length)).map (fun j : ℕ =>
        ((x.getD i []).getD j []).map (fun hrow =>
          rotate_row hrow
            (((f.getD i []).getD j []).take ((((f.getD i []).getD j []).length + 1) / 2))
            (((f.getD i []).getD j []).drop ((((f.getD i []).getD j []).length + 1) / 2)))))

/-- Reading an in-range position of a take. -/
theorem getD_take {α : Type} (l : List α) (n j : ℕ) (d : α) (h : j < n) :
    (l.take n).getD j d = l.getD j d := by
  simp only [List.getD_eq_getElem?_getD]
  rw [List.getElem?_take]
  simp [h]

/-- Reading a position of a drop. -/
theorem getD_drop {α : Type} (l : List α) (n j : ℕ) (d : α) :
    (l.drop n).getD j d = l.getD (n + j) d := by
  simp [List.getD_eq_getElem?_getD, List.getElem?_drop]

/-- Rotating one pair preserves its squared 2-norm when the applied cosine
and sine come from a common angle. -/
theorem rotate_row_pair_norm (xs cs ss : List ℝ) (k : ℕ) (θ : ℝ)
    (hk : 2 * k + 1 < xs.length)
    (hc : cs.getD k 0 = Real.cos θ) (hs : ss.getD k 0 = Real.sin θ) :
    (rotate_row xs cs ss).getD (2 * k) 0 ^ 2 + (rotate_row xs cs ss).getD (2 * k + 1) 0 ^ 2
      = xs.getD (2 * k) 0 ^ 2 + xs.getD (2 * k + 1) 0 ^ 2 := by
  have h0 : (2 * k) % 2 = 0 := by omega
  have h1 : ¬ (2 * k + 1) % 2 = 0 := by omega
  have hd0 : 2 * k / 2 = k := by omega
  have hd1 : (2 * k + 1) / 2 = k := by omega
  rw [rotate_row, getD_range_map _ xs.length (2 * k) 0 (by omega),
    getD_range_map _ xs.length (2 * k + 1) 0 hk]
  rw [if_pos h0, if_neg h1, hd0, hd1]
  have h2 : 2 * k + 1 - 1 = 2 * k := by omega
  rw [h2, hc, hs]
  have hpyth : Real.cos θ ^ 2 + Real.sin θ ^ 2 = 1 := Real.cos_sq_add_sin_sq θ
  nlinarith [hpyth]

/-- C2: apply_rotary_emb preserves the squared 2-norm of every consecutive
2-element group of the last dimension, exactly, for every input whose last
dimension is even and every matching cosine/sine table (a table whose k-th
pair of values, read across its cosine and sine halves, is (cos θ, sin θ)
for some angle θ); stated both for the rank-3 and the rank-4 application. -/
theorem apply_rotary_emb_pair_norm (x3 : List (List (List ℝ)))
    (x4 : List (List (List (List ℝ)))) (f : List (List (List ℝ)))
    (i j hh k : ℕ) (θ : ℝ)
    (hlen3 : ((f.getD i []).getD j []).length = ((x3.getD i []).getD j []).length)
    (hlen4 : ((f.getD i []).getD j []).length = (((x4.getD i []).getD j []).getD hh []).length)
    (heven : ((f.getD i []).getD j []).length % 2 = 0)
    (hk : 2 * k + 1 < ((f.getD i []).getD j []).length)
    (hcos : ((f.getD i []).getD j []).getD k 0 = Real.cos θ)
    (hsin : ((f.getD i []).getD j []).getD (((f.getD i []).getD j []).length / 2 + k) 0
      = Real.sin θ) :
    ((((apply_rotary_emb3 x3 (some f)).getD i []).getD j []).getD (2 * k) 0 ^ 2
      + (((apply_rotary_emb3 x3 (some f)).getD i []).getD j []).getD (2 * k + 1) 0 ^ 2
      = ((x3.getD i []).getD j []).getD (2 * k) 0 ^ 2
        + ((x3.getD i []).getD j []).getD (2 * k + 1) 0 ^ 2)
    ∧ (((((apply_rotary_emb4 x4 (some f)).getD i []).getD j []).getD hh []).getD (2 * k) 0 ^ 2
      + ((((apply_rotary_emb4 x4 (some f)).getD i []).getD j []).getD hh []).getD (2 * k + 1) 0 ^ 2
      = (((x4.getD i []).getD j []).getD hh []).getD (2 * k) 0 ^ 2
        + (((x4.getD i []).getD j []).getD hh []).getD (2 * k + 1) 0 ^ 2) := by
  have hi3 : i < x3.length := by
    by_contra hcon
    rw [getD_default x3 i [] (not_lt.mp hcon)] at hlen3
    rw [getD_default ([] : List (List ℝ)) j [] (by simp)] at hlen3
    simp only [List.length_nil] at hlen3
    omega
  have hj3 : j < (x3.getD i []).length := by
    by_contra hcon
    rw [getD_default (x3.getD i []) j [] (not_lt.mp hcon)] at hlen3
    simp only [List.length_nil] at hlen3
    omega
  have hi4 : i < x4.length := by
    by_contra hcon
    rw [getD_default x4 i [] (not_lt.mp hcon)] at hlen4
    rw [getD_default ([] : List (List (List ℝ))) j [] (by simp)] at hlen4
    rw [getD_default ([] : List (List ℝ)) hh [] (by simp)] at hlen4
    simp only [List.length_nil] at hlen4
    omega
  have hj4 : j < (x4.getD i []).length := by
    by_contra hcon
    rw [getD_default (x4.getD i []) j [] (not_lt.mp hcon)] at hlen4
    rw [getD_default ([] : List (List ℝ)) hh [] (by simp)] at hlen4
    simp only [List.length_nil] at hlen4
    omega
  have hh4 : hh < ((x4.getD i []).getD j []).length := by
    by_contra hcon
    rw [getD_default ((x4.getD i []).getD j []) hh [] (not_lt.mp hcon)] at hlen4
    simp only [List.length_nil] at hlen4
    omega
  have hcs : ((((f.getD i []).getD j [])).take
      ((((f.getD i []).getD j []).length + 1) / 2)).getD k 0 = Real.cos θ := by
    rw [getD_take _ _ _ _ (by omega)]
    exact hcos
  have hss : ((((f.getD i []).getD j [])).drop
      ((((f.getD i []).getD j []).length + 1) / 2)).getD k 0 = Real.sin θ := by
    rw [getD_drop]
    have hc2 : (((f.getD i []).getD j []).length + 1) / 2 + k
        = ((f.getD i []).getD j []).length / 2 + k := by omega
    rw [hc2]
    exact hsin
  constructor
  · have e3 : ((apply_rotary_emb3 x3 (some f)).getD i []).getD j []
        = rotate_row ((x3.getD i []).getD j [])
          ((((f.getD i []).getD j [])).take ((((f.getD i []).getD j []).length + 1) / 2))
          ((((f.getD i []).getD j [])).drop ((((f.getD i []).getD j []).length + 1) / 2)) := by
      simp only [apply_rotary_emb3]
      rw [getD_range_map _ x3.length i [] hi3, getD_range_map _ _ j [] hj3]
    rw [e3]
    exact rotate_row_pair_norm _ _ _ k θ (by omega) hcs hss
  · have e4 : (((apply_rotary_emb4 x4 (some f)).getD i []).getD j []).getD hh []
        = rotate_row (((x4.getD i []).getD j []).getD hh [])
          ((((f.getD i []).getD j [])).take ((((f.getD i []).getD j []).length + 1) / 2))
          ((((f.getD i []).getD j [])).drop ((((f.getD i []).getD j []).length + 1) / 2)) := by
      simp only [apply_rotary_emb4]
      rw [getD_range_map _ x4.length i [] hi4, getD_range_map _ _ j [] hj4,
        getD_map _ _ hh [] [] hh4]
    rw [e4]
    exact rotate_row_pair_norm _ _ _ k θ (by omega) hcs hss

/-- C2 witness at x = [[[3, 4]]] (and its rank-4 analogue), table
[[[1, 0]]] = [[[cos 0, sin 0]]], pair index 0. -/
theorem apply_rotary_emb_pair_norm_witness :
    (((apply_rotary_emb3 [[[3, 4]]] (some [[[1, 0]]])).getD 0 []).getD 0 []).getD 0 0 ^ 2
      + (((apply_rotary_emb3 [[[3, 4]]] (some [[[1, 0]]])).getD 0 []).getD 0 []).getD 1 0 ^ 2
      = ((([[[3, 4]]] : List (List (List ℝ))).getD 0 []).getD 0 []).getD 0 0 ^ 2
        + ((([[[3, 4]]] : List (List (List ℝ))).getD 0 []).getD 0 []).getD 1 0 ^ 2 :=
  (apply_rotary_emb_pair_norm [[[3, 4]]] [[[[3, 4]]]] [[[1, 0]]] 0 0 0 0 0
    (by simp) (by simp) (by simp) (by norm_num)
    (by simp) (by simp [Real.sin_zero])).1

/- ------------------------------------------------------------------ -/
/- RMSNorm, FeedForward, CrossAttention, Attention (source lines      -/
/- 9-20, 120-133, 136-216).                                           -/
/- ------------------------------------------------------------------ -/

abbrev Reals3 := List (List (List ℝ))

abbrev Reals4 := List (List (List (List ℝ)))

abbrev Mask4 := List (List (List (List (WithBot ℝ))))

/-- Dot product of two feature rows. -/
noncomputable def dotR (u v : List ℝ) : ℝ := (List.zipWith (fun a b => a * b) u v).sum

/-- nn.Linear on one feature row: y_o = W[o] . x + bias[o], with W stored as
(out_features, in_features) rows; bias is none for bias=False layers. -/
noncomputable def linear (W : List (List ℝ)) (bias : Option (List ℝ)) (x : List ℝ) :
    List ℝ :=
  (List.range W.length).map (fun o : ℕ =>
    dotR (W.getD o []) x + (match bias with | none => 0 | some bs => bs.getD o 0))

theorem linear_length (W : List (List ℝ)) (bias : Option (List ℝ)) (x : List ℝ) :
    (linear W bias x).length = W.length := by simp [linear]

/-- Row-major reshape of the last dimension into (h, hd) head chunks:
chunk i holds entries i*hd .. i*hd + hd - 1. -/
def chunkInto {α : Type} (h hd : ℕ) (l : List α) : List (List α) :=
  (List.range h).map (fun i : ℕ => (l.drop (i * hd)).take hd)

theorem chunkInto_shape {α : Type} (h hd : ℕ) (l : List α) (hl : h * hd ≤ l.length) :
    shape2 (chunkInto h hd l) h hd := by
  refine ⟨by simp [chunkInto], ?_⟩
  intro r hr
  simp only [chunkInto, List.mem_map, List.mem_range] at hr
  obtain ⟨i, hi, rfl⟩ := hr
  have h1 : (i + 1) * hd ≤ h * hd := Nat.mul_le_mul_right hd (by omega)
  have h2 : i * hd + hd ≤ l.length := by
    have he : (i + 1) * hd = i * hd + hd := by ring
    omega
  simp only [List.length_take, List.length_drop]
  omega

/-- torch.Tensor.transpose(-2, -1) on a rank-2 block stored as rows (with a
default element for the degenerate out-of-range read). -/
def transposeM {α : Type} (d : α) (m : List (List α)) : List (List α) :=
  (List.range ((m.headD []).length)).map (fun j : ℕ => m.map (fun r => r.getD j d))

theorem transposeM_length {α : Type} (d : α) (m : List (List α)) :
    (transposeM d m).length = (m.headD []).length := by simp [transposeM]

theorem transposeM_rows {α : Type} (d : α) (m : List (List α)) :
    ∀ r ∈ transposeM d m, r.length = m.length := by
  intro r hr
  simp only [transposeM, List.mem_map, List.mem_range] at hr
  obtain ⟨j, _, rfl⟩ := hr
  simp

theorem transposeM_mem {α : Type} (d : α) (m : List (List α)) (c : ℕ)
    (hm : ∀ r ∈ m, r.length = c) :
    ∀ r ∈ transposeM d m, ∀ e ∈ r, ∃ r0 ∈ m, e ∈ r0 := by
  intro r hr e he
  simp only [transposeM, List.mem_map, List.mem_range] at hr
  obtain ⟨j, hj, rfl⟩ := hr
  simp only [List.mem_map] at he
  obtain ⟨r0, hr0, rfl⟩ := he
  refine ⟨r0, hr0, ?_⟩
  have hne : m ≠ [] := List.ne_nil_of_mem hr0
  have hhead : m.headD [] ∈ m := by
    cases m with
    | nil => exact absurd rfl hne
    | cons a l => simp
  have hjc : j < c := by rw [← hm _ hhead]; exact hj
  have hlen := hm r0 hr0
  exact getD_mem r0 j d (by omega)

/-- torch.nn.LayerNorm over the last dimension (default eps 1e-5, affine
weight and bias), applied to one row: (x - mean) / sqrt(var + eps) * gamma
+ beta with the biased variance. -/
noncomputable def layer_norm (gamma beta x : List ℝ) : List ℝ :=
  (List.range x.length).map (fun n : ℕ =>
    (x.getD n 0 - x.sum / x.length)
        / Real.sqrt ((x.map (fun v => (v - x.sum / x.length) ^ 2)).sum / x.length + 1e-5)
        * gamma.getD n 1
      + beta.getD n 0)

theorem layer_norm_length (gamma beta x : List ℝ) :
    (layer_norm gamma beta x).length = x.length := by simp [layer_norm]

theorem rotate_row_length (xs cs ss : List ℝ) :
    (rotate_row xs cs ss).length = xs.length := by simp [rotate_row]

/-- Source class RMSNorm (lines 9-20): eps and the learned per-channel
weight (initialized to ones by the constructor). -/
structure RMSNormParams where
  eps : ℝ
  weight : List ℝ

/-- RMSNorm.forward on one last-dimension row: x * rsqrt(mean(x^2) + eps)
scaled elementwise by the learned weight.  The float()/type_as precision
round trip of the source is the identity in exact real arithmetic. -/
noncomputable def RMSNorm.forward (p : RMSNormParams) (x : List ℝ) : List ℝ :=
  (List.range x.length).map (fun n : ℕ =>
    x.getD n 0 * (Real.sqrt ((x.map (fun v => v ^ 2)).sum / x.length + p.eps))⁻¹
      * p.weight.getD n 1)

/-- RMSNorm.forward as a state transformer on the parameter record: the
source mutates no parameter tensor in forward, so the state passes through
unchanged. -/
noncomputable def RMSNorm.forwardS (p : RMSNormParams) (x : List ℝ) :
    List ℝ × RMSNormParams :=
  (RMSNorm.forward p x, p)

/-- Source class FeedForward (lines 120-133): the three bias-free linear
projections (the hidden-width default computation concerns construction
only). -/
structure FeedForwardParams where
  w1 : List (List ℝ)
  w2 : List (List ℝ)
  w3 : List (List ℝ)

/-- F.silu: x * sigmoid(x). -/
noncomputable def silu (v : ℝ) : ℝ := v * (1 + Real.exp (-v))⁻¹

/-- FeedForward.forward on one row: w2(silu(w1 x) * w3 x); nn.Dropout is the
identity outside training mode, which is the deterministic mode modelled
here. -/
noncomputable def FeedForward.forward (p : FeedForwardParams) (x : List ℝ) : List ℝ :=
  linear p.w2 none
    (List.zipWith (fun a b => a * b) ((linear p.w1 none x).map silu) (linear p.w3 none x))

/-- FeedForward.forward as a state transformer on the parameter record. -/
noncomputable def FeedForward.forwardS (p : FeedForwardParams) (x : List ℝ) :
    List ℝ × FeedForwardParams :=
  (FeedForward.forward p x, p)

/-- Source class CrossAttention, constructed state (lines 137-164): model
dimension, head count, head_dim = dim // num_heads, the qk_norm flag, the
q / kv / proj linear layers (bq, bkv are none when qkv_bias is False; proj
always carries a bias) and the LayerNorm parameters used when qk_norm is
set.  Weight values are passed in because torch randomizes them. -/
structure CrossAttentionParams where
  dim : ℕ
  num_heads : ℕ
  head_dim : ℕ
  qk_norm : Bool
  wq : List (List ℝ)
  bq : Option (List ℝ)
  wkv : List (List ℝ)
  bkv : Option (List ℝ)
  q_norm_weight : List ℝ
  q_norm_bias : List ℝ
  k_norm_weight : List ℝ
  k_norm_bias : List ℝ
  wproj : List (List ℝ)
  bproj : List ℝ

/-- CrossAttention.__init__ (lines 137-164): asserts dim % num_heads == 0
(modelled as none on failure) and stores head_dim = dim // num_heads. -/
def CrossAttention.init (dim num_heads : ℕ) (qk_norm : Bool)
    (wq : List (List ℝ)) (bq : Option (List ℝ))
    (wkv : List (List ℝ)) (bkv : Option (List ℝ))
    (qnw qnb knw knb : List ℝ)
    (wproj : List (List ℝ)) (bproj : List ℝ) : Option CrossAttentionParams :=
  if dim % num_heads = 0 then
    some ⟨dim, num_heads, dim / num_heads, qk_norm, wq, bq, wkv, bkv,
      qnw, qnb, knw, knb, wproj, bproj⟩
  else none

/-- Line 176: self.q(q_x).reshape(bsz, q_seqlen, num_heads, head_dim). -/
noncomputable def CrossAttention.q_heads (p : CrossAttentionParams) (q_x : Reals3) :
    Reals4 :=
  q_x.map (fun rows => rows.map (fun r => chunkInto p.num_heads p.head_dim (linear p.wq p.bq r)))

/-- Lines 177-178: self.kv(kv_x).reshape(bsz, kv_seqlen, 2, num_heads,
head_dim).permute(2, 0, 1, 3, 4) followed by unbind(0); k is the first dim
features of the joint projection (the reshape is legal exactly when
dim = num_heads * head_dim, which construction guarantees). -/
noncomputable def CrossAttention.k_heads (p : CrossAttentionParams) (kv_x : Reals3) :
    Reals4 :=
  kv_x.map (fun rows => rows.map (fun r =>
    chunkInto p.num_heads p.head_dim ((linear p.wkv p.bkv r).take p.dim)))

/-- Lines 177-178, the v half: the last dim features of the joint
projection. -/
noncomputable def CrossAttention.v_heads (p : CrossAttentionParams) (kv_x : Reals3) :
    Reals4 :=
  kv_x.map (fun rows => rows.map (fun r =>
    chunkInto p.num_heads p.head_dim ((linear p.wkv p.bkv r).drop p.dim)))

/-- Line 179: self.q_norm(q) — LayerNorm(head_dim) when qk_norm was set,
identity otherwise. -/
noncomputable def CrossAttention.norm_q (p : CrossAttentionParams) (t : Reals4) : Reals4 :=
  if p.qk_norm then
    t.map (fun rows => rows.map (fun hs => hs.map (layer_norm p.q_norm_weight p.q_norm_bias)))
  else t

/-- Line 179: self.k_norm(k). -/
noncomputable def CrossAttention.norm_k (p : CrossAttentionParams) (t : Reals4) : Reals4 :=
  if p.qk_norm then
    t.map (fun rows => rows.map (fun hs => hs.map (layer_norm p.k_norm_weight p.k_norm_bias)))
  else t

/-- exp of an extended score: exp(-inf) = 0, the softmax weight of a fully
masked position. -/
noncomputable def expw (s : WithBot ℝ) : ℝ := WithBot.recBotCoe 0 Real.exp s

/-- Size-1 dimensions broadcast: reading a broadcastable dimension. -/
def bget {α : Type} (l : List α) (i : ℕ) (d : α) : α :=
  if l.length = 1 then l.headD d else l.getD i d

/-- Reading the additive mask at (batch, head, query, key) with torch
broadcasting of size-1 dimensions (a score_mask has shape (b, 1, 1, kv)). -/
def mask_entry (m : Mask4) (i hh a j : ℕ) : WithBot ℝ :=
  bget (bget (bget (bget m i []) hh []) a []) j 0

/-- One query row of F.scaled_dot_product_attention (line 189, the fused
path taken whenever torch provides the kernel, with dropout_p = 0 outside
training): softmax(q . k / sqrt(head_dim) + mask) applied to the value
rows. -/
noncomputable def sdpa_row (hd : ℕ) (qrow : List ℝ) (krows vrows : List (List ℝ))
    (mrow : ℕ → WithBot ℝ) : List ℝ :=
  let weights := (List.range krows.length).map (fun jj : ℕ =>
    expw (((dotR qrow (krows.getD jj []) / Real.sqrt (hd : ℝ) : ℝ) : WithBot ℝ) + mrow jj))
  (List.range hd).map (fun c : ℕ =>
    ((List.range krows.length).map (fun jk : ℕ =>
      weights.getD jk 0 / weights.sum * ((vrows.getD jk []).getD c 0))).sum)

theorem sdpa_row_length (hd : ℕ) (qrow : List ℝ) (krows vrows : List (List ℝ))
    (mrow : ℕ → WithBot ℝ) : (sdpa_row hd qrow krows vrows mrow).length = hd := by
  simp [sdpa_row]

/-- Lines 183-190: after the transposes to (bs, heads, seq, head_dim), the
batched multi-head scaled-dot-product attention. -/
noncomputable def CrossAttention.attn (p : CrossAttentionParams)
    (qT kT vT : Reals4) (mask : Option Mask4) : Reals4 :=
  (List.range qT.length).map (fun i : ℕ =>
    (List.range ((qT.getD i []).length)).map (fun hh : ℕ =>
      (List.range (((qT.getD i []).getD hh []).length)).map (fun a : ℕ =>
        sdpa_row p.head_dim (((qT.getD i []).getD hh []).getD a [])
          ((kT.getD i []).getD hh []) ((vT.getD i []).getD hh [])
          (fun jk => match mask with
            | none => 0
            | some m => mask_entry m i hh a jk))))

/-- Source CrossAttention.forward (lines 166-203) in deterministic
(inference) mode: project query and key/value, split heads, optional
LayerNorm on q/k, rotary application, transpose to (bs, heads, seq,
head_dim), fused scaled-dot-product attention, transpose back, merge heads
(reshape(bsz, q_seqlen, ch)) and the output projection.  attn_drop and
proj_drop are identities outside training mode. -/
noncomputable def CrossAttention.forward (p : CrossAttentionParams)
    (q_x kv_x : Reals3) (q_freqs_cis k_freqs_cis : Option Reals3)
    (mask : Option Mask4) : Reals3 :=
  (((CrossAttention.attn p
        ((apply_rotary_emb4 (CrossAttention.norm_q p (CrossAttention.q_heads p q_x))
          q_freqs_cis).map (transposeM []))
        ((apply_rotary_emb4 (CrossAttention.norm_k p (CrossAttention.k_heads p kv_x))
          k_freqs_cis).map (transposeM []))
        ((CrossAttention.v_heads p kv_x).map (transposeM []))
        mask).map (transposeM [])).map
      (fun rows => rows.map List.flatten)).map
    (fun rows => rows.map (linear p.wproj (some p.bproj)))

/-- CrossAttention.forward as a state transformer on the parameter
record. -/
noncomputable def CrossAttention.forwardS (p : CrossAttentionParams)
    (q_x kv_x : Reals3) (q_freqs_cis k_freqs_cis : Option Reals3)
    (mask : Option Mask4) : Reals3 × CrossAttentionParams :=
  (CrossAttention.forward p q_x kv_x q_freqs_cis k_freqs_cis mask, p)

/-- Source class Attention (lines 206-216): self-attention delegating to
CrossAttention.forward with x as both the query and the key/value source
and the same rotary table for both. -/
noncomputable def Attention.forward (p : CrossAttentionParams) (x : Reals3)
    (freqs_cis : Option Reals3) (mask : Option Mask4) : Reals3 :=
  CrossAttention.forward p x x freqs_cis freqs_cis mask

/-- Attention.forward as a state transformer on the parameter record. -/
noncomputable def Attention.forwardS (p : CrossAttentionParams) (x : Reals3)
    (freqs_cis : Option Reals3) (mask : Option Mask4) : Reals3 × CrossAttentionParams :=
  (Attention.forward p x freqs_cis mask, p)

/- ------------------------------------------------------------------ -/
/- Shape lemmas for the attention pipeline, and the module theorems.  -/
/- ------------------------------------------------------------------ -/

theorem map_shape3_to4 {α β : Type} (f : List α → List (List β))
    (x : List (List (List α))) (a b h hd : ℕ)
    (hlen : x.length = a) (hmem : ∀ m ∈ x, m.length = b)
    (hf : ∀ r : List α, shape2 (f r) h hd) :
    shape4 (x.map (fun rows => rows.map f)) a b h hd := by
  refine ⟨by simpa using hlen, ?_⟩
  intro m hm
  simp only [List.mem_map] at hm
  obtain ⟨m0, hm0, rfl⟩ := hm
  refine ⟨by simpa using hmem m0 hm0, ?_⟩
  intro r hr
  simp only [List.mem_map] at hr
  obtain ⟨r0, _, rfl⟩ := hr
  exact hf r0

theorem map_shape4_lastdim {α β : Type} (f : List α → List β)
    (x : List (List (List (List α)))) (a b c d : ℕ)
    (hx : shape4 x a b c d) (hf : ∀ r : List α, (f r).length = r.length) :
    shape4 (x.map (fun rows => rows.map (fun hs => hs.map f))) a b c d := by
  refine ⟨by simpa using hx.1, ?_⟩
  intro m hm
  simp only [List.mem_map] at hm
  obtain ⟨m0, hm0, rfl⟩ := hm
  obtain ⟨hl0, hr0⟩ := hx.2 m0 hm0
  refine ⟨by simpa using hl0, ?_⟩
  intro r hr
  simp only [List.mem_map] at hr
  obtain ⟨r0, hr0', rfl⟩ := hr
  obtain ⟨hl1, hr1⟩ := hr0 r0 hr0'
  refine ⟨by simpa using hl1, ?_⟩
  intro rr hrr
  simp only [List.mem_map] at hrr
  obtain ⟨rr0, hrr0, rfl⟩ := hrr
  rw [hf rr0]
  exact hr1 rr0 hrr0

theorem apply_rotary_emb4_shape (x : Reals4) (fop : Option Reals3) (a b c d : ℕ)
    (hx : shape4 x a b c d) : shape4 (apply_rotary_emb4 x fop) a b c d := by
  cases fop with
  | none => simpa [apply_rotary_emb4] using hx
  | some f0 =>
    refine ⟨by simp [apply_rotary_emb4, hx.1], ?_⟩
    intro m hm
    simp only [apply_rotary_emb4, List.mem_map, List.mem_range] at hm
    obtain ⟨i, hi, rfl⟩ := hm
    have hxi := hx.2 (x.getD i []) (getD_mem x i [] hi)
    refine ⟨by simp only [List.length_map, List.length_range]; exact hxi.1, ?_⟩
    intro r hr
    simp only [List.mem_map, List.mem_range] at hr
    obtain ⟨j, hj, rfl⟩ := hr
    have hxj := hxi.2 ((x.getD i []).getD j []) (getD_mem _ j [] hj)
    refine ⟨by simpa using hxj.1, ?_⟩
    intro rr hrr
    simp only [List.mem_map] at hrr
    obtain ⟨hrow, hhrow, rfl⟩ := hrr
    rw [rotate_row_length]
    exact hxj.2 hrow hhrow

theorem headD_range_map {β : Type} (G : ℕ → β) (n : ℕ) (d : β) (hn : 0 < n) :
    ((List.range n).map G).headD d = G 0 := by
  cases n with
  | zero => omega
  | succ m =>
    rw [List.range_succ_eq_map]
    rfl

/-- Shape of the tail of the forward pipeline (attention, transpose back,
head merge, output projection), driven entirely by the shape of the
transposed query input. -/
theorem attn_pipeline_shape (p : CrossAttentionParams) (Q4 kT vT : Reals4)
    (mask : Option Mask4) (b q dim : ℕ)
    (hpos : 0 < p.num_heads)
    (hwproj : p.wproj.length = dim)
    (hQ : shape4 Q4 b q p.num_heads p.head_dim) :
    shape3 ((((CrossAttention.attn p (Q4.map (transposeM [])) kT vT mask).map
        (transposeM [])).map (fun rows => rows.map List.flatten)).map
      (fun rows => rows.map (linear p.wproj (some p.bproj)))) b q dim := by
  refine ⟨?_, ?_⟩
  · simp only [List.length_map, CrossAttention.attn, List.length_range]
    exact hQ.1
  · intro m hm
    simp only [List.mem_map] at hm
    obtain ⟨m1, ⟨m2, ⟨Ai, hAi, rfl⟩, rfl⟩, rfl⟩ := hm
    refine ⟨?_, ?_⟩
    · simp only [List.length_map, transposeM_length]
      simp only [CrossAttention.attn, List.mem_map, List.mem_range] at hAi
      obtain ⟨i, hi, rfl⟩ := hAi
      have hilen : i < Q4.length := by
        simpa using hi
      have hQ4i := hQ.2 (Q4.getD i []) (getD_mem Q4 i [] hilen)
      have hqTi : (Q4.map (transposeM [])).getD i []
          = transposeM ([] : List ℝ) (Q4.getD i []) :=
        getD_map (transposeM []) Q4 i [] [] hilen
      rcases Nat.eq_zero_or_pos q with hq0 | hqpos
      · have hnil : Q4.getD i [] = [] := by
          rw [← List.length_eq_zero, hQ4i.1, hq0]
        rw [hqTi, hnil]
        simp [transposeM, hq0]
      · have hne : Q4.getD i [] ≠ [] := by
          intro hcon
          have hl := hQ4i.1
          rw [hcon] at hl
          simp only [List.length_nil] at hl
          omega
        have hhead : (Q4.getD i []).headD [] ∈ Q4.getD i [] := by
          cases hcc : Q4.getD i [] with
          | nil => exact absurd hcc hne
          | cons aa ll => simp
        have hqTilen : ((Q4.map (transposeM [])).getD i []).length = p.num_heads := by
          rw [hqTi, transposeM_length]
          exact (hQ4i.2 _ hhead).1
        rw [headD_range_map _ _ _ (by rw [hqTilen]; exact hpos)]
        simp only [List.length_map, List.length_range]
        have h0 : 0 < ((Q4.map (transposeM [])).getD i []).length := by
          rw [hqTilen]; exact hpos
        have hmem0 : ((Q4.map (transposeM [])).getD i []).getD 0 []
            ∈ (Q4.map (transposeM [])).getD i [] := getD_mem _ 0 [] h0
        rw [hqTi] at hmem0
        rw [hqTi, transposeM_rows [] (Q4.getD i []) _ hmem0]
        exact hQ4i.1
    · intro r hr
      simp only [List.mem_map] at hr
      obtain ⟨r0, _, rfl⟩ := hr
      rw [linear_length, hwproj]

/-- C4: for a CrossAttention whose constructed state satisfies the
divisibility invariant (dim % num_heads = 0, head_dim = dim // num_heads,
at least one head — torch construction with num_heads = 0 itself raises),
forward maps a (batch, query_len, dim) query and a (batch, kv_len, dim)
key/value source to a (batch, query_len, dim) output, for any rotary tables
and mask; and construction with dim % num_heads ≠ 0 fails (returns none). -/
theorem cross_attention_spec (p : CrossAttentionParams) (b q kv dim : ℕ)
    (q_x kv_x : Reals3) (qf kf : Option Reals3) (mask : Option Mask4)
    (hdim : p.dim = dim)
    (hpos : 0 < p.num_heads)
    (hdvd : dim % p.num_heads = 0)
    (hhd : p.head_dim = dim / p.num_heads)
    (hwq : p.wq.length = dim)
    (hwkv : p.wkv.length = 2 * dim)
    (hwproj : p.wproj.length = dim)
    (hqx : shape3 q_x b q dim)
    (hkvx : shape3 kv_x b kv dim) :
    shape3 (CrossAttention.forward p q_x kv_x qf kf mask) b q dim
    ∧ (∀ (dim' heads' : ℕ) (qkn : Bool) (wq' : List (List ℝ)) (bq' : Option (List ℝ))
        (wkv' : List (List ℝ)) (bkv' : Option (List ℝ)) (qnw qnb knw knb : List ℝ)
        (wproj' : List (List ℝ)) (bproj' : List ℝ),
        dim' % heads' ≠ 0 →
        CrossAttention.init dim' heads' qkn wq' bq' wkv' bkv' qnw qnb knw knb wproj' bproj'
          = none) := by
  constructor
  · have hEq : p.num_heads * p.head_dim = dim := by
      rw [hhd]
      exact Nat.mul_div_cancel' (Nat.dvd_of_mod_eq_zero hdvd)
    have s_q2 : shape4 (CrossAttention.q_heads p q_x) b q p.num_heads p.head_dim := by
      apply map_shape3_to4 _ _ _ _ _ _ hqx.1 (fun m hm => (hqx.2 m hm).1)
      intro r
      apply chunkInto_shape
      rw [linear_length, hwq, ← hEq]
    have s_q3 : shape4 (CrossAttention.norm_q p (CrossAttention.q_heads p q_x))
        b q p.num_heads p.head_dim := by
      rw [CrossAttention.norm_q]
      cases hqk : p.qk_norm
      · rw [if_neg Bool.false_ne_true]
        exact s_q2
      · rw [if_pos rfl]
        exact map_shape4_lastdim _ _ _ _ _ _ s_q2 (fun r => layer_norm_length _ _ r)
    have s_q4 : shape4 (apply_rotary_emb4
        (CrossAttention.norm_q p (CrossAttention.q_heads p q_x)) qf)
        b q p.num_heads p.head_dim :=
      apply_rotary_emb4_shape _ qf _ _ _ _ s_q3
    exact attn_pipeline_shape p _ _ _ mask b q dim hpos hwproj s_q4
  · intro dim' heads' qkn wq' bq' wkv' bkv' qnw qnb knw knb wproj' bproj' hne
    simp [CrossAttention.init, hne]

/-- C4 witness: dim = 2, 2 heads, head_dim = 1, identity-like weights,
batch = query_len = kv_len = 1. -/
theorem cross_attention_spec_witness :
    shape3 (CrossAttention.forward
      ⟨2, 2, 1, false, [[1, 0], [0, 1]], none, [[1, 0], [0, 1], [1, 0], [0, 1]], none,
        [], [], [], [], [[1, 0], [0, 1]], [0, 0]⟩
      [[[1, 2]]] [[[3, 4]]] none none none) 1 1 2 :=
  (cross_attention_spec
    ⟨2, 2, 1, false, [[1, 0], [0, 1]], none, [[1, 0], [0, 1], [1, 0], [0, 1]], none,
      [], [], [], [], [[1, 0], [0, 1]], [0, 0]⟩
    1 1 1 2 [[[1, 2]]] [[[3, 4]]] none none none
    rfl (by decide) (by decide) rfl rfl rfl rfl (by decide) (by decide)).1

/-- C5: Attention.forward(x, freqs_cis, mask) equals CrossAttention.forward
called with x as both the query and the key/value source and the same
rotary table for both, on the same parameters (deterministic/inference
mode). -/
theorem attention_forward_delegates (p : CrossAttentionParams) (x : Reals3)
    (freqs_cis : Option Reals3) (mask : Option Mask4) :
    Attention.forward p x freqs_cis mask
      = CrossAttention.forward p x x freqs_cis freqs_cis mask := rfl

/-- C9: the forward computations of RMSNorm, FeedForward, CrossAttention
and Attention, modelled as state transformers on their parameter records,
leave every learned parameter unchanged: the source performs no in-place
mutation of any parameter tensor in forward. -/
theorem forward_preserves_params
    (pr : RMSNormParams) (xr : List ℝ) (pf : FeedForwardParams) (xf : List ℝ)
    (pc : CrossAttentionParams) (qx kvx : Reals3) (qfc kfc : Option Reals3)
    (mc : Option Mask4)
    (pa : CrossAttentionParams) (xa : Reals3) (fa : Option Reals3) (ma : Option Mask4) :
    (RMSNorm.forwardS pr xr).2 = pr
    ∧ (FeedForward.forwardS pf xf).2 = pf
    ∧ (CrossAttention.forwardS pc qx kvx qfc kfc mc).2 = pc
    ∧ (Attention.forwardS pa xa fa ma).2 = pa :=
  ⟨rfl, rfl, rfl, rfl⟩

end RFWave
